import Mathlib

/-!
Verification development for the ShadowJS reactive core
(`packages/core/src/reactivity/hooks/useStore.ts`,
`packages/core/src/reactivity/hooks/useEffect.ts`,
`packages/core/src/reactivity/scheduler.ts`, and the lifecycle module
`runtime/lifecycle.ts`).

The runtime is embedded shallowly: module-level mutable variables
(`__currentEffect`, `__currentEffectDeps`, `__effectStack`, the scheduler's
`pending` flag and `queue`, each store's `value` and `subscribers`) become
fields of an explicit state record, and each source function becomes a state
transformer.  JS `Set` objects of effect runners / cells are modelled as
insertion-ordered duplicate-free lists (`Set.add` = append-if-absent,
`Set.delete` = filter), which preserves both membership and the iteration
order `Set.forEach` uses.  Effect runner closures are identified by numeric
ids; the user callback passed to `useEffect` is modelled by a small syntax of
operations (`Op`) covering store reads/writes, `untrack`, nested effect
creation, and throwing — the interpreter for that syntax is the embedding of
the runtime functions themselves.  A JS exception is the `Bool` component of
the interpreter's result (`true` = the call threw); `try/finally` and
`try/catch` blocks of the source are reproduced explicitly.
-/

namespace Shadow
/-- Syntax of effect bodies (user callbacks): store reads and writes,
`untrack`, nested `useEffect` creation, throwing, and sequencing.  Bodies
return no value, so the `typeof ret === "function"` branch of the source
(storing a user cleanup) never fires for these bodies and the user-cleanup
bookkeeping is omitted from the auto-runner embedding. -/
inductive Op where
  | skip : Op
  | read (c : Nat) : Op
  | readLog (c : Nat) : Op
  | write (c : Nat) (v : Int) : Op
  | writeUpd (c : Nat) (f : Int → Int) : Op
  | mkEffect (body : Op) : Op
  | untrackOps (body : Op) : Op
  | throwErr : Op
  | seq (a b : Op) : Op

/-- Global state of the reactive core.

* `values c` / `subs c` — the `value` and `subscribers` closure variables of
  the store with id `c` (`useStore.ts`).
* `curEffect`, `curDeps`, `effectStack` — `__currentEffect`,
  `__currentEffectDeps`, `__effectStack` (`useEffect.ts`).  `curDeps` records
  the subscriber sets touched during the current run; a subscriber set is
  identified by its store id.
* `latestAuto e` — the `latestDepsSetsForAuto` variable of effect `e`;
  `none` models the JS value `null`.
* `bodies e` — the user callback `fn` of effect `e` (fixed at creation).
* `queue`, `pending` — the scheduler's module state (`scheduler.ts`).
* `mtOutstanding` — ghost: number of `queueMicrotask(flush)` calls whose
  flush has not yet run.
* `invoked` — ghost trace of runner invocations (a runner id is appended
  the moment the runner function is called).
* `log` — output of `readLog` bodies (models a user log).
* `nextEff` — fresh-id source for newly created effect runners. -/
structure RState where
  values : Nat → Int
  subs : Nat → List Nat
  curEffect : Option Nat
  curDeps : Option (List Nat)
  effectStack : List Nat
  latestAuto : Nat → Option (List Nat)
  bodies : Nat → Op
  queue : List Nat
  pending : Bool
  mtOutstanding : Nat
  invoked : List Nat
  log : List Int
  nextEff : Nat

/-- JS `Set.add`: append if absent, keeping insertion order. -/
def addIfAbsent (l : List Nat) (x : Nat) : List Nat :=
  if x ∈ l then l else l ++ [x]

/-- Embedding of `scheduleEffect` (`scheduler.ts`): add to the deduplicating
queue; if no flush is pending, set the flag and schedule one microtask. -/
def scheduleEffect (σ : RState) (e : Nat) : RState :=
  let σ₁ := { σ with queue := addIfAbsent σ.queue e }
  if σ₁.pending then σ₁
  else { σ₁ with pending := true, mtOutstanding := σ₁.mtOutstanding + 1 }

/-- Embedding of a store's `read` closure (`useStore.ts`): if an effect is
current, add it to this store's subscriber set; if a dependency collection is
active, record this store's subscriber set in it; return the value. -/
def readCell (c : Nat) (σ : RState) : RState × Int :=
  let σ₁ :=
    match σ.curEffect with
    | some e => { σ with subs := Function.update σ.subs c (addIfAbsent (σ.subs c) e) }
    | none => σ
  let σ₂ :=
    match σ₁.curDeps with
    | some ds => { σ₁ with curDeps := some (addIfAbsent ds c) }
    | none => σ₁
  (σ₂, σ₂.values c)

/-- Embedding of a store's `write` closure (`useStore.ts`) for a direct
(non-updater) argument.  Source:
`value = newValue; if (value !== newValue) { subscribers.forEach(scheduleEffect) }` —
the comparison reads the just-assigned variable, so it compares `newValue`
with itself. -/
def writeDirect (c : Nat) (nv : Int) (σ : RState) : RState :=
  let value := nv
  let σ₁ := { σ with values := Function.update σ.values c value }
  if value ≠ nv then (σ₁.subs c).foldl scheduleEffect σ₁ else σ₁

/-- Embedding of a store's `write` closure for an updater-function argument.
Source: `value = newValue(value); if (value !== newValue) ...` — the computed
`Int` result is never reference-equal to the updater function object, so the
test is always true and subscribers are always scheduled. -/
def writeUpdater (c : Nat) (f : Int → Int) (σ : RState) : RState :=
  let value := f (σ.values c)
  let σ₁ := { σ with values := Function.update σ.values c value }
  (σ₁.subs c).foldl scheduleEffect σ₁

/-- First half of the auto-mode runner `execute` (`useEffect.ts`), up to and
including entering tracking mode: record the invocation (ghost), then
`unsubscribeSets(latestDepsSetsForAuto, execute)` — a TypeError (`none`
result) when that variable is `null` — then set `__currentEffect`, push
`__effectStack`, and start a fresh `__currentEffectDeps` collection. -/
def runnerBegin (e : Nat) (σ : RState) : Option RState :=
  match σ.latestAuto e with
  | none => none
  | some sets =>
    some { σ with
      subs := fun c => if c ∈ sets then (σ.subs c).filter (fun x => x ≠ e) else σ.subs c,
      curEffect := some e,
      effectStack := σ.effectStack ++ [e],
      curDeps := some [] }

/-- The `finally` block of the auto-mode runner `execute`: store
`__currentEffectDeps` (whatever it now is — possibly `null`) into
`latestDepsSetsForAuto`, null `__currentEffectDeps`, pop `__effectStack`,
and restore `__currentEffect` from the new stack top (or `null`). -/
def runnerFinally (e : Nat) (σ : RState) : RState :=
  let stack := σ.effectStack.dropLast
  { σ with
    latestAuto := Function.update σ.latestAuto e σ.curDeps,
    curDeps := none,
    effectStack := stack,
    curEffect := stack.getLast? }

/-- Interpreter for effect bodies.  Each case is the corresponding runtime
call; the `Bool` result is `true` when the call threw.  `seq` stops at the
first throw (JS exception propagation); `untrackOps` is the embedding of
`untrack` (`useEffect.ts`): save `__currentEffect`/`__currentEffectDeps`,
null both, run, restore both in a `finally`.  `mkEffect` is `useEffect(fn)`
in auto mode: allocate the runner, initialize `latestDepsSetsForAuto` to an
empty set, then run it synchronously — the inlined runner code here is
exactly `executeAuto` below (`registerCleanup` is a silent no-op in these
scenarios because no component scope is active). -/
def interpOp : Op → RState → RState × Bool
  | .skip, σ => (σ, false)
  | .read c, σ => ((readCell c σ).1, false)
  | .readLog c, σ =>
      let r := readCell c σ
      ({ r.1 with log := r.1.log ++ [r.2] }, false)
  | .write c v, σ => (writeDirect c v σ, false)
  | .writeUpd c f, σ => (writeUpdater c f σ, false)
  | .throwErr, σ => (σ, true)
  | .seq a b, σ =>
      let r := interpOp a σ
      if r.2 then (r.1, true) else interpOp b r.1
  | .untrackOps body, σ =>
      let prevEffect := σ.curEffect
      let prevDeps := σ.curDeps
      let σ₁ := { σ with curEffect := none, curDeps := none }
      let r := interpOp body σ₁
      ({ r.1 with curEffect := prevEffect, curDeps := prevDeps }, r.2)
  | .mkEffect body, σ =>
      let e := σ.nextEff
      let σ₁ := { σ with
        nextEff := e + 1,
        bodies := Function.update σ.bodies e body,
        latestAuto := Function.update σ.latestAuto e (some []) }
      let σᵢ := { σ₁ with invoked := σ₁.invoked ++ [e] }
      match runnerBegin e σᵢ with
      | none => (σᵢ, true)
      | some σ₂ =>
        let r := interpOp body σ₂
        (runnerFinally e r.1, r.2)

/-- Embedding of the auto-mode runner `execute` (`useEffect.ts`) for runner
`e` with user callback `body`: the invocation is recorded (ghost), then
`runnerBegin` (unsubscribe + enter tracking), the body, and the `finally`
block — identical to the inlined runner in `interpOp`'s `mkEffect` case. -/
def executeAuto (e : Nat) (body : Op) (σ : RState) : RState × Bool :=
  let σᵢ := { σ with invoked := σ.invoked ++ [e] }
  match runnerBegin e σᵢ with
  | none => (σᵢ, true)
  | some σ₂ =>
    let r := interpOp body σ₂
    (runnerFinally e r.1, r.2)

/-- Embedding of `flush` (`scheduler.ts`): reset the pending flag, snapshot
the queue, clear it, then run every snapshotted runner under `try/catch`
(the thrown flag of each call is discarded — errors are swallowed so one bad
effect cannot stop the rest).  The ghost `mtOutstanding` is decremented:
one scheduled microtask is being delivered.  `runTask` is one iteration of
the flush loop: `try { fn() } catch { }` — the runner is called with its
registered body and the thrown flag is dropped. -/
def runTask (s : RState) (e : Nat) : RState :=
  (executeAuto e (s.bodies e) s).1

/-- The flush itself: see `runTask` above for the per-task step. -/
def flushRun (σ : RState) : RState :=
  let σ₁ := { σ with mtOutstanding := σ.mtOutstanding - 1, pending := false }
  let tasks := σ₁.queue
  let σ₂ := { σ₁ with queue := [] }
  tasks.foldl runTask σ₂

/-- The quiescent initial state: no stores written yet (all values 0, no
subscribers), no tracking context, empty scheduler. -/
def initState : RState where
  values := fun _ => 0
  subs := fun _ => []
  curEffect := none
  curDeps := none
  effectStack := []
  latestAuto := fun _ => none
  bodies := fun _ => .skip
  queue := []
  pending := false
  mtOutstanding := 0
  invoked := []
  log := []
  nextEff := 0

/-- The callable store returned by `useStore`: `const store = (() => read())`. -/
def storeCall (c : Nat) (σ : RState) : RState × Int := readCell c σ

/-- The `.value` property getter installed by
`Object.defineProperty(store, "value", { get: read, set: write })`: it is the
very same `read` closure the callable store delegates to. -/
def storeValueGet (c : Nat) (σ : RState) : RState × Int := readCell c σ

/-- The `.value` property setter: the same `write` closure `useStore` returns
as the setter (direct-value form). -/
def storeValueSet (c : Nat) (v : Int) (σ : RState) : RState := writeDirect c v σ

/-- State of claim C1's failing input: one store (id 9) holding `0`, with one
subscribed effect runner (id 0); scheduler idle. -/
def c1State : RState :=
  { initState with
    values := Function.update initState.values 9 0,
    subs := Function.update initState.subs 9 [0] }

/-- Program of claim C4's scenario: create a store (id 5, initial value `0`),
create an auto-tracked effect that reads it and appends the value to the log,
then synchronously write `1` and write `2` (direct values). -/
def c4Program : Op :=
  .seq (.mkEffect (.readLog 5)) (.seq (.write 5 1) (.write 5 2))

/-- State after running the C4 scenario's synchronous part. -/
def c4After : RState := (interpOp c4Program initState).1

/-- Body of claim C2's failing input: an auto-tracked effect that reads store
1, creates a nested auto-tracked effect, then reads store 2. -/
def c2Body : Op := .seq (.read 1) (.seq (.mkEffect .skip) (.read 2))

/-- State after creating the C2 effect (its initial synchronous run). -/
def c2Setup : RState := (interpOp (.mkEffect c2Body) initState).1

/-- State after an updater write to store 1 and the resulting flush. -/
def c2AfterFlush : RState := flushRun (writeUpdater 1 (fun p => p + 1) c2Setup)

/-- Body of claim C9's failing input: inside `untrack`, create an effect and
then read store 7. -/
def c9Body : Op := .untrackOps (.seq (.mkEffect .skip) (.read 7))

/-- State after running an auto effect whose body is `c9Body`. -/
def c9After : RState := (interpOp (.mkEffect c9Body) initState).1

/-! ### Explicit-dependency mode (`useEffect(fn, deps)`)

Focused embedding of the deps-mode closures of `useEffect.ts` for one
dep-tracked effect over the shared store/scheduler state.  A declared reader
is modelled as `() => c()` for a store id `c` (reading exactly one store);
the wrapped `fn` is opaque and its invocations are counted.  Re-reads of the
dep stores inside `hasDepChanged` / `execute` happen while tracking is still
active in the source, but they re-add an already-present subscriber to an
already-recorded set (`Set.add` no-ops), so they appear only as the value
reads here. -/

/-- Runner id of the modelled dep-tracked effect (`depEffect`). -/
def depRunnerId : Nat := 0

/-- State for the explicit-dependency-mode embedding: store values and
subscriber sets, the closure variables `lastDepsValues`, `isInitialized`,
`latestDepsSetsForDep` (as store ids), a ghost count of `fn` invocations,
and the scheduler's queue/flag. -/
structure DepState where
  values : Nat → Int
  subs : Nat → List Nat
  lastDepsValues : List Int
  isInitialized : Bool
  latestDep : List Nat
  fnRuns : Nat
  queue : List Nat
  pending : Bool

/-- Embedding of `hasDepChanged` (`useEffect.ts`): evaluate every declared
reader, compare against the cached values, and — crucially — overwrite the
cache as soon as a change is detected.  The element loop is rendered as a
whole-list comparison: for equal lengths the loop returns true and sets
`lastDepsValues = current` exactly when `current` differs from the cache. -/
def hasDepChanged (deps : List Nat) (σ : DepState) : DepState × Bool :=
  let current := deps.map σ.values
  if σ.lastDepsValues.length ≠ current.length then
    ({ σ with lastDepsValues := current }, true)
  else if current ≠ σ.lastDepsValues then
    ({ σ with lastDepsValues := current }, true)
  else (σ, false)

/-- Embedding of the `execute` runner in deps mode (`useEffect.ts`): on the
first run set the initialized flag, cache the dep values, and invoke `fn`;
on later runs invoke `fn` only if `hasDepChanged()` — called here a second
time, after `depEffect` already consumed the change — reports a change.
`fn` returns no cleanup, so the user-cleanup bookkeeping is a no-op. -/
def executeDeps (deps : List Nat) (σ : DepState) : DepState :=
  if !σ.isInitialized then
    { σ with
      isInitialized := true,
      lastDepsValues := deps.map σ.values,
      fnRuns := σ.fnRuns + 1 }
  else
    let r := hasDepChanged deps σ
    if r.2 then { r.1 with fnRuns := r.1.fnRuns + 1 } else r.1

/-- Embedding of `depEffect` (`useEffect.ts`): unsubscribe this runner from
the previously recorded sets, enter tracking, evaluate every declared reader
(each read subscribes the runner to that store and records its subscriber
set), store the recorded sets, then `if (!isInitialized || hasDepChanged())
execute()`. -/
def depEffect (deps : List Nat) (σ : DepState) : DepState :=
  let σ₁ := { σ with
    subs := fun c =>
      if c ∈ σ.latestDep then (σ.subs c).filter (fun x => x ≠ depRunnerId)
      else σ.subs c }
  let σ₂ := deps.foldl
    (fun s c => { s with subs := Function.update s.subs c (addIfAbsent (s.subs c) depRunnerId) })
    σ₁
  let σ₃ := { σ₂ with latestDep := deps.foldl addIfAbsent [] }
  if !σ₃.isInitialized then executeDeps deps σ₃
  else
    let r := hasDepChanged deps σ₃
    if r.2 then executeDeps deps r.1 else r.1

/-- The scheduler's `scheduleEffect` over `DepState`. -/
def depSchedule (σ : DepState) (e : Nat) : DepState :=
  let σ₁ := { σ with queue := addIfAbsent σ.queue e }
  if σ₁.pending then σ₁ else { σ₁ with pending := true }

/-- The store `write` closure for an updater argument over `DepState` (same
code as `writeUpdater`: the computed value is never reference-equal to the
updater function, so subscribers are always scheduled). -/
def depWriteUpdater (c : Nat) (f : Int → Int) (σ : DepState) : DepState :=
  let value := f (σ.values c)
  let σ₁ := { σ with values := Function.update σ.values c value }
  (σ₁.subs c).foldl depSchedule σ₁

/-- The scheduler's `flush` over `DepState`: every queued runner id is the
dep-tracked effect's runner, so each task runs `depEffect`. -/
def depFlush (deps : List Nat) (σ : DepState) : DepState :=
  let σ₁ := { σ with pending := false }
  let tasks := σ₁.queue
  let σ₂ := { σ₁ with queue := [] }
  tasks.foldl (fun s _ => depEffect deps s) σ₂

/-- Initial `DepState`: one store (id 7) holding `0`, nothing subscribed. -/
def depInit : DepState where
  values := fun _ => 0
  subs := fun _ => []
  lastDepsValues := []
  isInitialized := false
  latestDep := []
  fnRuns := 0
  queue := []
  pending := false

/-- After `useEffect(fn, [() => c7()])` creation: the initial `depEffect()`. -/
def c5AfterInit : DepState := depEffect [7] depInit

/-- After an updater write changing store 7 from `0` to `1`. -/
def c5AfterWrite : DepState := depWriteUpdater 7 (fun _ => 1) c5AfterInit

/-- After the scheduled flush re-runs `depEffect`. -/
def c5AfterFlush : DepState := depFlush [7] c5AfterWrite

/-! ### Scheduler invariant -/

/-- One microtask flush is outstanding exactly when the pending flag is set
— "at most one flush is scheduled at a time". -/
abbrev SchedInv (σ : RState) : Prop :=
  σ.mtOutstanding = if σ.pending then 1 else 0

/-- Concrete scheduler state for the C3 witness: runner 0 (body `skip`)
queued, one flush pending. -/
def c3Input : RState :=
  { initState with
    queue := [0],
    pending := true,
    mtOutstanding := 1,
    latestAuto := Function.update initState.latestAuto 0 (some []),
    nextEff := 1 }

/-! ### Lifecycle: scopes, cleanups, boundaries, disposal
(`runtime/lifecycle.ts`, `hooks/onCleanup.ts`)

DOM nodes are rose trees with numeric ids standing for object identity;
scopes are identified by ids, their mutable `cleanups` arrays live in a map.
A cleanup callback is opaque: invoking it is observable (an event tagged
with the scope and cleanup id) and it may throw (`cleanupThrows`); cleanups
do not mutate the DOM or register further cleanups in this model. -/

/-- DOM nodes as seen by the disposal walk: comment nodes (potential
boundary start anchors), text nodes, and elements with ordered children. -/
inductive DNode where
  | comment (id : Nat) : DNode
  | text (id : Nat) : DNode
  | elem (id : Nat) (children : List DNode) : DNode

/-- Observable events of a disposal pass: a cleanup invocation (tagged with
scope and cleanup id) and the physical detachment of a top-level region
node (`parent.removeChild`). -/
inductive LEv where
  | ran (s : Nat) (c : Nat) : LEv
  | detached (n : Nat) : LEv
deriving DecidableEq

/-- Lifecycle state: per-scope cleanup lists (`Scope.cleanups`), the scope
stack (`scopeStack`, as scope ids), the boundary map (`compStartMap`: start
anchor comment id to scope id — the end anchor plays no role in running
cleanups), which cleanup callbacks throw, the event trace, and a fresh-id
source for `pushComponentScope`. -/
structure LState where
  scopeCleanups : Nat → List Nat
  scopeStack : List Nat
  boundary : Nat → Option Nat
  cleanupThrows : Nat → Bool
  events : List LEv
  nextScope : Nat

/-- Embedding of `pushComponentScope`: a fresh scope with an empty cleanup
list, pushed on the stack. -/
def pushComponentScope (σ : LState) : LState × Nat :=
  let s := σ.nextScope
  ({ σ with
      scopeCleanups := Function.update σ.scopeCleanups s [],
      scopeStack := σ.scopeStack ++ [s],
      nextScope := s + 1 }, s)

/-- Embedding of `getCurrentScope`: the top of the stack, if any. -/
def getCurrentScope (σ : LState) : Option Nat :=
  σ.scopeStack.getLast?

/-- Embedding of `registerCleanup` (`runtime/lifecycle.ts`):
`const s = getCurrentScope(); if (s) s.cleanups.push(fn);` — with no active
scope the call silently does nothing. -/
def registerCleanup (fn : Nat) (σ : LState) : LState :=
  match getCurrentScope σ with
  | some s =>
      { σ with scopeCleanups := Function.update σ.scopeCleanups s (σ.scopeCleanups s ++ [fn]) }
  | none => σ

/-- Embedding of `onCleanup` (`hooks/onCleanup.ts`): the argument is a
function by typing, so the `typeof fn !== "function"` guard cannot fire;
with no active scope it throws `ERRORS.HOOK_OUTSIDE_COMPONENT("onCleanup")`,
otherwise it delegates to `registerCleanup`. -/
def onCleanup (fn : Nat) (σ : LState) : Except String LState :=
  match getCurrentScope σ with
  | none => .error "onCleanup must be called during a component's execution"
  | some _ => .ok (registerCleanup fn σ)

/-- One cleanup invocation: the call itself is recorded in the trace; the
`Bool` reports whether the callback threw. -/
def invokeCleanup (s c : Nat) (σ : LState) : LState × Bool :=
  ({ σ with events := σ.events ++ [.ran s c] }, σ.cleanupThrows c)

/-- Embedding of `runCleanups` (`runtime/lifecycle.ts`): invoke the scope's
cleanups last-in-first-out, each inside `try { } catch { }` (the thrown flag
is discarded), then clear the list. -/
def runCleanups (s : Nat) (σ : LState) : LState :=
  let σ₁ := (σ.scopeCleanups s).reverse.foldl (fun st c => (invokeCleanup s c st).1) σ
  { σ₁ with scopeCleanups := Function.update σ₁.scopeCleanups s [] }

/-- Embedding of `markComponentBoundary`: associate a start anchor with its
scope. -/
def markComponentBoundary (startId s : Nat) (σ : LState) : LState :=
  { σ with boundary := Function.update σ.boundary startId (some s) }

/-- Embedding of `disposeIfComponentStart`: only a comment node can be a
boundary start; if it is recorded, run its scope's cleanups and delete the
association. -/
def disposeIfComponentStart (n : DNode) (σ : LState) : LState :=
  match n with
  | .comment k =>
    match σ.boundary k with
    | none => σ
    | some s =>
      let σ₁ := runCleanups s σ
      { σ₁ with boundary := Function.update σ₁.boundary k none }
  | _ => σ

mutual

/-- Embedding of `deepDisposeNode`: clean the node itself if it is a
boundary-start comment, then recurse into the children — before any
removal. -/
def deepDisposeNode : DNode → LState → LState
  | .comment k, σ => disposeIfComponentStart (.comment k) σ
  | .text _, σ => σ
  | .elem _ cs, σ => deepDisposeList cs σ

/-- The child walk of `deepDisposeNode` (`firstChild` / `nextSibling`). -/
def deepDisposeList : List DNode → LState → LState
  | [], σ => σ
  | n :: rest, σ => deepDisposeList rest (deepDisposeNode n σ)

end

/-- Identity of a node (the object removed by `parent.removeChild`). -/
def rootId : DNode → Nat
  | .comment k => k
  | .text i => i
  | .elem i _ => i

/-- Embedding of `disposeBetween` (`runtime/lifecycle.ts`), applied to the
sibling list strictly between the two anchor comments (the source returns
immediately when the start anchor has no parent; the anchors themselves are
never visited): for each node in order, `deepDisposeNode` runs the cleanups
found in its subtree, then the node is physically detached. -/
def disposeBetween : List DNode → LState → LState
  | [], σ => σ
  | n :: rest, σ =>
      let σ₁ := deepDisposeNode n σ
      let σ₂ := { σ₁ with events := σ₁.events ++ [.detached (rootId n)] }
      disposeBetween rest σ₂

/-- Cleanup invocations of scope `s` in a trace, in order. -/
def ranFor (s : Nat) (evs : List LEv) : List Nat :=
  evs.filterMap fun e =>
    match e with
    | .ran s' c => if s' = s then some c else none
    | .detached _ => none

mutual

/-- Comment-node ids of a subtree, in document (preorder) order. -/
def commentIds : DNode → List Nat
  | .comment k => [k]
  | .text _ => []
  | .elem _ cs => commentIdsList cs

/-- Comment-node ids of a sibling list, in document order. -/
def commentIdsList : List DNode → List Nat
  | [] => []
  | n :: rest => commentIds n ++ commentIdsList rest

end

/-- Scopes recorded (under boundary map `b`) at the comment anchors of a
region, in document order. -/
def foundScopes (b : Nat → Option Nat) (region : List DNode) : List Nat :=
  (commentIdsList region).filterMap b

/-- Scopes recorded at the comment anchors of a single subtree. -/
def foundScopesNode (b : Nat → Option Nat) (n : DNode) : List Nat :=
  (commentIds n).filterMap b

/-- A trace fragment consisting of cleanup invocations only. -/
def OnlyRan (t : List LEv) : Prop :=
  ∀ e ∈ t, ∃ s c, e = LEv.ran s c

/-- Block structure of a disposal trace: for each top-level region node in
order, a block of cleanup events (from its subtree) followed by that node's
`detached` event — cleanups always run before the node is removed. -/
inductive RegionTrace : List DNode → List LEv → Prop where
  | nil : RegionTrace [] []
  | cons {n : DNode} {ns : List DNode} {t evs : List LEv} :
      OnlyRan t → RegionTrace ns evs →
      RegionTrace (n :: ns) (t ++ LEv.detached (rootId n) :: evs)

/-- The empty lifecycle state: no scopes, empty stack, no boundaries. -/
def emptyLState : LState where
  scopeCleanups := fun _ => []
  scopeStack := []
  boundary := fun _ => none
  cleanupThrows := fun _ => false
  events := []
  nextScope := 0

/-! ## Theorems -/

/-- Creating an effect allocates a fresh runner id, registers its body and an
empty recorded-sets collection, and runs it synchronously. -/
theorem interpOp_mkEffect (body : Op) (σ : RState) :
    interpOp (.mkEffect body) σ =
      executeAuto σ.nextEff body
        { σ with
          nextEff := σ.nextEff + 1,
          bodies := Function.update σ.bodies σ.nextEff body,
          latestAuto := Function.update σ.latestAuto σ.nextEff (some []) } := rfl

/-- Membership after a JS `Set.add` of the element itself. -/
theorem mem_addIfAbsent_self (l : List Nat) (x : Nat) : x ∈ addIfAbsent l x := by
  unfold addIfAbsent
  split
  · assumption
  · simp

/-- C1: evaluation of `write` at the failing input.  The claim requires that a
direct write of `1` over previous value `0` enqueue the subscriber (values
differ), and that notification be decided against the pre-update value.  The
code instead compares against the just-assigned value: the direct write
schedules nothing (empty queue, no microtask), while an updater write whose
result equals the previous value (no change) schedules the subscriber. -/
theorem C1_write_notification_eval :
    (writeDirect 9 1 c1State).values 9 = 1 ∧
    (writeDirect 9 1 c1State).queue = [] ∧
    (writeDirect 9 1 c1State).mtOutstanding = 0 ∧
    (writeUpdater 9 (fun p => p) c1State).values 9 = 0 ∧
    (writeUpdater 9 (fun p => p) c1State).queue = [0] := by
  decide

/-- C4: evaluation of the scenario.  The claim expects the log `[0, 2]` after
the microtask flush.  Because `write` compares the freshly assigned value
with itself, neither write schedules anything: no microtask is pending, the
queue is empty, and the log after the flush is `[0]` — only the initial
synchronous run ever logged. -/
theorem C4_scenario_eval :
    c4After.log = [0] ∧
    c4After.values 5 = 2 ∧
    c4After.subs 5 = [0] ∧
    c4After.queue = [] ∧
    c4After.mtOutstanding = 0 ∧
    (flushRun c4After).log = [0] := by
  decide

/-- C2: evaluation at the failing input.  After the initial run, runner 0 is
in the subscriber sets of stores 1 and 2, but its recorded set collection
`latestDepsSetsForAuto` is `null` (`none`): the nested effect's `finally`
nulled `__currentEffectDeps` without restoring the outer collection, so the
read of store 2 subscribed without recording, and the outer `finally` stored
`null`.  The next re-run (scheduled by an updater write, run by the flush)
throws on `unsubscribeSets(null, ...)` before removing anything or reading
any store, leaving runner 0 subscribed to both stores although its most
recent execution read neither — the claim's removal/recording mechanism and
its membership iff both fail. -/
theorem C2_nested_recording_lost :
    c2Setup.latestAuto 0 = none ∧
    c2Setup.subs 1 = [0] ∧
    c2Setup.subs 2 = [0] ∧
    (executeAuto 0 (c2Setup.bodies 0) c2Setup).2 = true ∧
    c2AfterFlush.invoked = [0, 1, 0] ∧
    c2AfterFlush.subs 1 = [0] ∧
    c2AfterFlush.subs 2 = [0] := by
  decide

/-- C9: evaluation at the failing input.  The outer runner (id 0) executes
`untrack(fn)`; `fn` creates a nested effect and then reads store 7.  The
nested runner's `finally` restores `__currentEffect` from `__effectStack` —
which still holds the outer runner, because `untrack` nulls the variable but
does not touch the stack — so the subsequent read inside `untrack` adds the
outer runner to store 7's subscribers (and records nothing:
`__currentEffectDeps` stays `null`).  The claim requires that no outer runner
be subscribed by reads inside `untrack`. -/
theorem C9_untrack_subscribes_outer :
    c9After.subs 7 = [0] ∧
    c9After.latestAuto 0 = some [] := by
  decide

/-- C10: the `.value` accessor of a store is wired to the same closures as
the callable store and the returned setter (`get: read, set: write`), so a
`.value` read during tracking subscribes the current effect exactly as a
call does, and a `.value` assignment takes the same write path as the
setter. -/
theorem C10_value_property_reactive (c : Nat) (σ : RState) (e : Nat)
    (h : σ.curEffect = some e) :
    storeValueGet c σ = storeCall c σ ∧
    (∀ v, storeValueSet c v σ = writeDirect c v σ) ∧
    e ∈ (storeValueGet c σ).1.subs c := by
  refine ⟨rfl, fun _ => rfl, ?_⟩
  have hs : (storeValueGet c σ).1.subs c = addIfAbsent (σ.subs c) e := by
    unfold storeValueGet readCell
    rw [h]
    cases hd : σ.curDeps <;> simp
  rw [hs]
  exact mem_addIfAbsent_self _ _

/-- Witness for C10 at a concrete input: store 4, tracking runner 3. -/
theorem C10_value_property_reactive_witness :
    ({ initState with curEffect := some 3 } : RState).curEffect = some 3 ∧
    3 ∈ (storeValueGet 4 { initState with curEffect := some 3 }).1.subs 4 :=
  ⟨rfl, (C10_value_property_reactive 4 { initState with curEffect := some 3 } 3 rfl).2.2⟩

/-- C5: evaluation at the failing input.  `fn` runs once at creation.  The
updater write changes the declared reader's value from `0` to `1` and
schedules the dep runner.  The flush re-runs `depEffect`, whose
`hasDepChanged()` call reports the change and overwrites the cache; the
nested `execute()` then calls `hasDepChanged()` a second time, which now
compares the fresh values against the already-updated cache, reports no
change, and skips `fn` — `fnRuns` stays `1`, although the claim requires the
wrapped `fn` to be invoked again when a declared reader's value differs from
its cached previous value. -/
theorem C5_dep_change_skips_fn :
    c5AfterInit.fnRuns = 1 ∧
    c5AfterInit.lastDepsValues = [0] ∧
    c5AfterInit.subs 7 = [depRunnerId] ∧
    c5AfterWrite.values 7 = 1 ∧
    c5AfterWrite.queue = [depRunnerId] ∧
    c5AfterFlush.lastDepsValues = [1] ∧
    c5AfterFlush.fnRuns = 1 := by
  decide

/-- Invoking a list of cleanups of scope `s` only appends their invocation
events: the loop body touches no other field, and a thrown callback
(`cleanupThrows`) is caught and changes nothing else. -/
theorem foldl_invokeCleanup_char (l : List Nat) (s : Nat) (σ : LState) :
    l.foldl (fun st c => (invokeCleanup s c st).1) σ
      = { σ with events := σ.events ++ l.map (LEv.ran s) } := by
  induction l generalizing σ with
  | nil => simp
  | cons c cs ih =>
      rw [List.foldl_cons, ih]
      simp [invokeCleanup]

/-- Characterization of `runCleanups`: all cleanups of the scope are invoked
in reverse registration order — independently of which callbacks throw —
and the scope's list is cleared. -/
theorem runCleanups_char (s : Nat) (σ : LState) :
    runCleanups s σ
      = { σ with
          events := σ.events ++ (σ.scopeCleanups s).reverse.map (LEv.ran s),
          scopeCleanups := Function.update σ.scopeCleanups s [] } := by
  unfold runCleanups
  rw [foldl_invokeCleanup_char]

/-- C7 counterexample: with the scope stack empty, `registerCleanup` returns
with the state unchanged.  It is a silent no-op — its type has no error
channel, mirroring the source's `if (s) s.cleanups.push(fn)` guard — which
refutes the claim that every cleanup-registration call without an active
scope raises a synchronous error. -/
theorem C7_registerCleanup_silent_noop :
    registerCleanup 5 emptyLState = emptyLState := rfl

/-- C7 amended: the public hook `onCleanup` raises a synchronous error
exactly when no scope is active, while the internal `registerCleanup` is a
silent no-op on an empty scope stack. -/
theorem C7_onCleanup_errors_without_scope (σ : LState) (f : Nat)
    (h : getCurrentScope σ = none) :
    onCleanup f σ
        = .error "onCleanup must be called during a component's execution"
      ∧ registerCleanup f σ = σ := by
  constructor
  · unfold onCleanup
    rw [h]
  · unfold registerCleanup
    rw [h]

/-- Witness for the amended C7 at the empty lifecycle state. -/
theorem C7_onCleanup_errors_without_scope_witness :
    getCurrentScope emptyLState = none ∧
    (onCleanup 5 emptyLState
        = .error "onCleanup must be called during a component's execution"
      ∧ registerCleanup 5 emptyLState = emptyLState) :=
  ⟨rfl, C7_onCleanup_errors_without_scope emptyLState 5 rfl⟩

/-- Unfolding of the interpreter on a sequence: the second operation is
skipped if the first threw. -/
theorem interpOp_seq (a b : Op) (σ : RState) :
    interpOp (.seq a b) σ
      = if (interpOp a σ).2 then ((interpOp a σ).1, true)
        else interpOp b (interpOp a σ).1 := rfl

/-- Unfolding of the interpreter on `untrack`: the saved tracking context is
restored around the body in all cases. -/
theorem interpOp_untrackOps (body : Op) (σ : RState) :
    interpOp (.untrackOps body) σ
      = ({ (interpOp body { σ with curEffect := none, curDeps := none }).1 with
            curEffect := σ.curEffect, curDeps := σ.curDeps },
         (interpOp body { σ with curEffect := none, curDeps := none }).2) := rfl

/-- A JS `Set.add` keeps the set duplicate-free. -/
theorem addIfAbsent_nodup {l : List Nat} (h : l.Nodup) (x : Nat) :
    (addIfAbsent l x).Nodup := by
  unfold addIfAbsent
  split
  · exact h
  · next hx => simp [List.nodup_append, h, hx]

/-- The queue after `scheduleEffect` is a `Set.add` of the old queue. -/
theorem scheduleEffect_queue (σ : RState) (e : Nat) :
    (scheduleEffect σ e).queue = addIfAbsent σ.queue e := by
  by_cases hp : σ.pending <;> simp [scheduleEffect, hp]

/-- `scheduleEffect` preserves the single-outstanding-flush invariant: it
schedules a microtask only when the pending flag was clear, and sets it. -/
theorem scheduleEffect_SchedInv {σ : RState} (e : Nat) (h : SchedInv σ) :
    SchedInv (scheduleEffect σ e) := by
  unfold scheduleEffect
  by_cases hp : σ.pending <;> simp [SchedInv, hp] at h ⊢ <;> omega

/-- `scheduleEffect` keeps the queue duplicate-free. -/
theorem scheduleEffect_nodup {σ : RState} (e : Nat) (h : σ.queue.Nodup) :
    (scheduleEffect σ e).queue.Nodup := by
  rw [scheduleEffect_queue]
  exact addIfAbsent_nodup h e

/-- `scheduleEffect` touches only the scheduler fields. -/
theorem scheduleEffect_ghost (σ : RState) (e : Nat) :
    (scheduleEffect σ e).invoked = σ.invoked
    ∧ (scheduleEffect σ e).nextEff = σ.nextEff := by
  by_cases hp : σ.pending <;> simp [scheduleEffect, hp]

/-- Folding `scheduleEffect` over any list of runners preserves the
invariant, keeps the queue duplicate-free, and leaves the ghost trace and
the fresh-id source unchanged. -/
theorem foldl_scheduleEffect_frame (es : List Nat) : ∀ σ : RState,
    (SchedInv σ → SchedInv (es.foldl scheduleEffect σ))
    ∧ (σ.queue.Nodup → (es.foldl scheduleEffect σ).queue.Nodup)
    ∧ (es.foldl scheduleEffect σ).invoked = σ.invoked
    ∧ (es.foldl scheduleEffect σ).nextEff = σ.nextEff := by
  induction es with
  | nil => exact fun σ => ⟨fun h => h, fun h => h, rfl, rfl⟩
  | cons e es ih =>
      intro σ
      rw [List.foldl_cons]
      obtain ⟨i1, i2, i3, i4⟩ := ih (scheduleEffect σ e)
      obtain ⟨g1, g2⟩ := scheduleEffect_ghost σ e
      exact ⟨fun h => i1 (scheduleEffect_SchedInv e h),
             fun h => i2 (scheduleEffect_nodup e h),
             i3.trans g1, i4.trans g2⟩

/-- `read` touches only the store's subscriber set and the dependency
collection. -/
theorem readCell_frame (c : Nat) (σ : RState) :
    (readCell c σ).1.invoked = σ.invoked
    ∧ (readCell c σ).1.nextEff = σ.nextEff
    ∧ (readCell c σ).1.queue = σ.queue
    ∧ (readCell c σ).1.pending = σ.pending
    ∧ (readCell c σ).1.mtOutstanding = σ.mtOutstanding := by
  unfold readCell
  cases h1 : σ.curEffect <;> cases h2 : σ.curDeps <;> simp [h1, h2]

/-- A direct write only updates the value and (possibly) the scheduler. -/
theorem writeDirect_frame (c : Nat) (v : Int) (σ : RState) :
    (writeDirect c v σ).invoked = σ.invoked
    ∧ (writeDirect c v σ).nextEff = σ.nextEff
    ∧ (SchedInv σ → SchedInv (writeDirect c v σ))
    ∧ (σ.queue.Nodup → (writeDirect c v σ).queue.Nodup) := by
  have hw : writeDirect c v σ = { σ with values := Function.update σ.values c v } := by
    simp [writeDirect]
  rw [hw]
  exact ⟨rfl, rfl, fun h => h, fun h => h⟩

/-- An updater write only updates the value and the scheduler. -/
theorem writeUpdater_frame (c : Nat) (f : Int → Int) (σ : RState) :
    (writeUpdater c f σ).invoked = σ.invoked
    ∧ (writeUpdater c f σ).nextEff = σ.nextEff
    ∧ (SchedInv σ → SchedInv (writeUpdater c f σ))
    ∧ (σ.queue.Nodup → (writeUpdater c f σ).queue.Nodup) := by
  unfold writeUpdater
  obtain ⟨i1, i2, i3, i4⟩ := foldl_scheduleEffect_frame _
    { σ with values := Function.update σ.values c (f (σ.values c)) }
  exact ⟨i3, i4, fun h => i1 h, fun h => i2 h⟩

/-- Entering a runner does not touch the ghost trace, the fresh-id source or
the scheduler. -/
theorem runnerBegin_frame {e : Nat} {σ σ₂ : RState}
    (h : runnerBegin e σ = some σ₂) :
    σ₂.invoked = σ.invoked ∧ σ₂.nextEff = σ.nextEff ∧ σ₂.queue = σ.queue
    ∧ σ₂.pending = σ.pending ∧ σ₂.mtOutstanding = σ.mtOutstanding := by
  unfold runnerBegin at h
  cases hl : σ.latestAuto e with
  | none => rw [hl] at h; cases h
  | some sets =>
      rw [hl] at h
      injection h with h
      subst h
      exact ⟨rfl, rfl, rfl, rfl, rfl⟩

/-- Unfolding of the runner when `unsubscribeSets` throws on a `null`
recorded-sets collection. -/
theorem executeAuto_none (e : Nat) (body : Op) (σ : RState)
    (h : runnerBegin e { σ with invoked := σ.invoked ++ [e] } = none) :
    executeAuto e body σ = ({ σ with invoked := σ.invoked ++ [e] }, true) := by
  unfold executeAuto
  simp only [h]

/-- Unfolding of the runner on a successful entry. -/
theorem executeAuto_some (e : Nat) (body : Op) (σ σ₂ : RState)
    (h : runnerBegin e { σ with invoked := σ.invoked ++ [e] } = some σ₂) :
    executeAuto e body σ
      = (runnerFinally e (interpOp body σ₂).1, (interpOp body σ₂).2) := by
  unfold executeAuto
  simp only [h]

/-- The frame property of a body run: it only appends fresh runner ids to
the invocation trace, never lowers the fresh-id source, preserves the
single-outstanding-flush invariant, and keeps the queue duplicate-free.
Stated as a hypothesis-parameterized lemma about `executeAuto` so it can be
used both inside the `interpOp` induction (for nested effect creation) and
for the flush loop. -/
theorem executeAuto_frame (e : Nat) (body : Op) (σ : RState)
    (hbody : ∀ τ : RState,
      (∃ Δ, (interpOp body τ).1.invoked = τ.invoked ++ Δ ∧ ∀ x ∈ Δ, τ.nextEff ≤ x)
      ∧ τ.nextEff ≤ (interpOp body τ).1.nextEff
      ∧ (SchedInv τ → SchedInv (interpOp body τ).1)
      ∧ (τ.queue.Nodup → (interpOp body τ).1.queue.Nodup)) :
    (∃ Δ, (executeAuto e body σ).1.invoked = σ.invoked ++ e :: Δ
        ∧ ∀ x ∈ Δ, σ.nextEff ≤ x)
    ∧ σ.nextEff ≤ (executeAuto e body σ).1.nextEff
    ∧ (SchedInv σ → SchedInv (executeAuto e body σ).1)
    ∧ (σ.queue.Nodup → (executeAuto e body σ).1.queue.Nodup) := by
  cases h : runnerBegin e { σ with invoked := σ.invoked ++ [e] } with
  | none =>
      rw [executeAuto_none e body σ h]
      exact ⟨⟨[], by simp, by simp⟩, le_rfl, fun hs => hs, fun hs => hs⟩
  | some σ₂ =>
      rw [executeAuto_some e body σ σ₂ h]
      obtain ⟨g1, g2, g3, g4, g5⟩ := runnerBegin_frame h
      obtain ⟨⟨Δ, h1, h2⟩, h3, h4, h5⟩ := hbody σ₂
      refine ⟨⟨Δ, ?_, ?_⟩, ?_, ?_, ?_⟩
      · show (interpOp body σ₂).1.invoked = _
        rw [h1, g1]
        simp
      · intro x hx
        have hh := h2 x hx
        rw [g2] at hh
        exact hh
      · show σ.nextEff ≤ (interpOp body σ₂).1.nextEff
        exact g2 ▸ h3
      · intro hs
        refine h4 ?_
        show σ₂.mtOutstanding = if σ₂.pending then 1 else 0
        rw [g4, g5]
        exact hs
      · intro hs
        refine h5 ?_
        rw [g3]
        exact hs

/-- The frame property holds for every body: running a body only appends
fresh runner ids to the invocation trace, never lowers `nextEff`, preserves
the single-outstanding-flush invariant, and keeps the queue
duplicate-free. -/
theorem interpOp_frame (o : Op) : ∀ σ : RState,
    (∃ Δ, (interpOp o σ).1.invoked = σ.invoked ++ Δ ∧ ∀ x ∈ Δ, σ.nextEff ≤ x)
    ∧ σ.nextEff ≤ (interpOp o σ).1.nextEff
    ∧ (SchedInv σ → SchedInv (interpOp o σ).1)
    ∧ (σ.queue.Nodup → (interpOp o σ).1.queue.Nodup) := by
  induction o with
  | skip =>
      exact fun σ => ⟨⟨[], by simp [interpOp], by simp⟩, le_rfl, fun h => h, fun h => h⟩
  | read c =>
      intro σ
      obtain ⟨i1, i2, i3, i4, i5⟩ := readCell_frame c σ
      refine ⟨⟨[], by simp [interpOp, i1], by simp⟩, ?_, ?_, ?_⟩
      · show σ.nextEff ≤ (readCell c σ).1.nextEff
        exact i2.ge
      · intro hs
        show (readCell c σ).1.mtOutstanding
            = if (readCell c σ).1.pending then 1 else 0
        rw [i4, i5]
        exact hs
      · intro hs
        show (readCell c σ).1.queue.Nodup
        exact i3 ▸ hs
  | readLog c =>
      intro σ
      obtain ⟨i1, i2, i3, i4, i5⟩ := readCell_frame c σ
      refine ⟨⟨[], by simp [interpOp, i1], by simp⟩, ?_, ?_, ?_⟩
      · show σ.nextEff ≤ (readCell c σ).1.nextEff
        exact i2.ge
      · intro hs
        show (readCell c σ).1.mtOutstanding
            = if (readCell c σ).1.pending then 1 else 0
        rw [i4, i5]
        exact hs
      · intro hs
        show (readCell c σ).1.queue.Nodup
        exact i3 ▸ hs
  | write c v =>
      intro σ
      obtain ⟨i1, i2, i3, i4⟩ := writeDirect_frame c v σ
      exact ⟨⟨[], by simp [interpOp, i1], by simp⟩, i2.ge, i3, i4⟩
  | writeUpd c f =>
      intro σ
      obtain ⟨i1, i2, i3, i4⟩ := writeUpdater_frame c f σ
      exact ⟨⟨[], by simp [interpOp, i1], by simp⟩, i2.ge, i3, i4⟩
  | throwErr =>
      exact fun σ => ⟨⟨[], by simp [interpOp], by simp⟩, le_rfl, fun h => h, fun h => h⟩
  | seq a b iha ihb =>
      intro σ
      rw [interpOp_seq]
      obtain ⟨⟨Δa, a1, a2⟩, a3, a4, a5⟩ := iha σ
      by_cases ht : (interpOp a σ).2 = true
      · rw [if_pos ht]
        exact ⟨⟨Δa, a1, a2⟩, a3, a4, a5⟩
      · rw [if_neg ht]
        obtain ⟨⟨Δb, b1, b2⟩, b3, b4, b5⟩ := ihb (interpOp a σ).1
        refine ⟨⟨Δa ++ Δb, ?_, ?_⟩, a3.trans b3, fun h => b4 (a4 h), fun h => b5 (a5 h)⟩
        · rw [b1, a1, List.append_assoc]
        · intro x hx
          rcases List.mem_append.mp hx with h | h
          · exact a2 x h
          · exact le_trans a3 (b2 x h)
  | untrackOps body ih =>
      intro σ
      rw [interpOp_untrackOps]
      obtain ⟨⟨Δ, h1, h2⟩, h3, h4, h5⟩ := ih { σ with curEffect := none, curDeps := none }
      exact ⟨⟨Δ, h1, h2⟩, h3, h4, h5⟩
  | mkEffect body ih =>
      intro σ
      rw [interpOp_mkEffect]
      obtain ⟨⟨Δ, h1, h2⟩, h3, h4, h5⟩ :=
        executeAuto_frame σ.nextEff body
          { σ with
            nextEff := σ.nextEff + 1,
            bodies := Function.update σ.bodies σ.nextEff body,
            latestAuto := Function.update σ.latestAuto σ.nextEff (some []) } ih
      refine ⟨⟨σ.nextEff :: Δ, h1, ?_⟩, le_trans (Nat.le_succ _) h3, h4, h5⟩
      intro x hx
      rcases List.mem_cons.mp hx with h | h
      · omega
      · have h' : σ.nextEff + 1 ≤ x := h2 x h
        omega

/-- The flush loop invokes every snapshotted task exactly once — whatever
the task bodies do, including throwing (the thrown flag is discarded by
`runTask`) and re-enqueueing effects (new invocations inside a task use
fresh runner ids, so they never add an extra invocation of a snapshotted
runner) — and it preserves the scheduler invariants. -/
theorem flushFold_frame (tasks : List Nat) : ∀ σ : RState,
    (∃ Δ, (tasks.foldl runTask σ).invoked = σ.invoked ++ Δ
        ∧ tasks.Sublist Δ
        ∧ ∀ x, x < σ.nextEff → Δ.count x = tasks.count x)
    ∧ σ.nextEff ≤ (tasks.foldl runTask σ).nextEff
    ∧ (SchedInv σ → SchedInv (tasks.foldl runTask σ))
    ∧ (σ.queue.Nodup → (tasks.foldl runTask σ).queue.Nodup) := by
  induction tasks with
  | nil =>
      exact fun σ =>
        ⟨⟨[], by simp, List.nil_sublist _, by simp⟩, le_rfl, fun h => h, fun h => h⟩
  | cons t ts ih =>
      intro σ
      rw [List.foldl_cons]
      obtain ⟨⟨Δ₀, e1, e2⟩, e3, e4, e5⟩ :=
        executeAuto_frame t (σ.bodies t) σ (interpOp_frame (σ.bodies t))
      obtain ⟨⟨Δ₁, f1, f2, f3⟩, f4, f5, f6⟩ := ih (runTask σ t)
      refine ⟨⟨t :: (Δ₀ ++ Δ₁), ?_, ?_, ?_⟩,
        le_trans e3 f4, fun h => f5 (e4 h), fun h => f6 (e5 h)⟩
      · show (ts.foldl runTask (runTask σ t)).invoked = _
        rw [f1]
        show (executeAuto t (σ.bodies t) σ).1.invoked ++ Δ₁ = _
        rw [e1]
        simp
      · exact List.Sublist.cons₂ t (f2.trans (List.sublist_append_right Δ₀ Δ₁))
      · intro x hx
        have hΔ₀ : Δ₀.count x = 0 := by
          refine List.count_eq_zero.mpr fun hmem => ?_
          have := e2 x hmem
          omega
        have hΔ₁ : Δ₁.count x = ts.count x := f3 x (lt_of_lt_of_le hx e3)
        simp [List.count_cons, List.count_append, hΔ₀, hΔ₁]

/-- C3: scheduler batching and single-flush discipline.  For any sequence of
`scheduleEffect` calls within one synchronous task, the
single-outstanding-flush invariant is preserved — at most one microtask
flush is ever scheduled no matter how many distinct effects are enqueued —
and the queue stays duplicate-free.  The flush clears the pending set and
flag before invoking anything: its invocation trace extension `Δ` contains
every snapshotted runner exactly once, however the runner bodies re-enqueue
themselves or others (such re-enqueues land in the queue for a later flush
and add no invocation of a snapshotted runner to the current one), and the
invariant still holds after the flush. -/
theorem C3_scheduler_batching (σ : RState) (es : List Nat)
    (hinv : SchedInv σ) (hnd : σ.queue.Nodup)
    (hfresh : ∀ e ∈ σ.queue, e < σ.nextEff) :
    SchedInv (es.foldl scheduleEffect σ)
    ∧ (es.foldl scheduleEffect σ).mtOutstanding ≤ 1
    ∧ (es.foldl scheduleEffect σ).queue.Nodup
    ∧ (∃ Δ, (flushRun σ).invoked = σ.invoked ++ Δ ∧ ∀ e ∈ σ.queue, Δ.count e = 1)
    ∧ SchedInv (flushRun σ)
    ∧ (flushRun σ).queue.Nodup := by
  obtain ⟨s1, s2, _, _⟩ := foldl_scheduleEffect_frame es σ
  have hinv' := s1 hinv
  have hmt : (es.foldl scheduleEffect σ).mtOutstanding ≤ 1 := by
    rw [hinv']
    split <;> omega
  have hstart : SchedInv ({ σ with
      mtOutstanding := σ.mtOutstanding - 1, pending := false, queue := [] } : RState) := by
    show σ.mtOutstanding - 1 = 0
    rw [hinv]
    split <;> omega
  obtain ⟨⟨Δ, g1, g2, g3⟩, _, g5, g6⟩ :=
    flushFold_frame σ.queue
      { σ with mtOutstanding := σ.mtOutstanding - 1, pending := false, queue := [] }
  refine ⟨hinv', hmt, s2 hnd, ⟨Δ, g1, ?_⟩, g5 hstart, g6 (List.nodup_nil)⟩
  intro e he
  rw [g3 e (hfresh e he)]
  exact List.count_eq_one_of_mem hnd he

/-- Witness for C3: runner 0 (body `skip`) queued with one flush pending;
three further `scheduleEffect` calls, two of them duplicates. -/
theorem C3_scheduler_batching_witness :
    (SchedInv c3Input ∧ c3Input.queue.Nodup ∧ ∀ e ∈ c3Input.queue, e < c3Input.nextEff)
    ∧ (SchedInv ([1, 1, 2].foldl scheduleEffect c3Input)
      ∧ ([1, 1, 2].foldl scheduleEffect c3Input).mtOutstanding ≤ 1
      ∧ ([1, 1, 2].foldl scheduleEffect c3Input).queue.Nodup
      ∧ (∃ Δ, (flushRun c3Input).invoked = c3Input.invoked ++ Δ
            ∧ ∀ e ∈ c3Input.queue, Δ.count e = 1)
      ∧ SchedInv (flushRun c3Input)
      ∧ (flushRun c3Input).queue.Nodup) :=
  ⟨⟨by decide, by decide, by decide⟩,
   C3_scheduler_batching c3Input [1, 1, 2] (by decide) (by decide) (by decide)⟩

/-- C8: user-callback failures are isolated per callback.  First conjunct:
for every scheduler state — whatever the queued runners' bodies do,
including throwing — the flush's invocation trace contains every snapshotted
runner, so one throwing runner never prevents the remaining runners of the
same flush from executing (and `flushRun` returns a plain state: the
exception is swallowed, never re-raised to the caller).  Second conjunct:
for every lifecycle state — whatever the value of `cleanupThrows` — a
disposal pass invokes every cleanup of the scope in reverse registration
order, so a throwing cleanup never prevents the subsequent ones. -/
theorem C8_failure_isolation :
    (∀ σ : RState, ∃ Δ, (flushRun σ).invoked = σ.invoked ++ Δ ∧ σ.queue.Sublist Δ)
    ∧ ∀ (σ : LState) (s : Nat),
        (runCleanups s σ).events
          = σ.events ++ (σ.scopeCleanups s).reverse.map (LEv.ran s) := by
  constructor
  · intro σ
    obtain ⟨⟨Δ, g1, g2, _⟩, _, _, _⟩ :=
      flushFold_frame σ.queue
        { σ with mtOutstanding := σ.mtOutstanding - 1, pending := false, queue := [] }
    exact ⟨Δ, g1, g2⟩
  · intro σ s
    rw [runCleanups_char]

/-- `ranFor` distributes over trace concatenation. -/
theorem ranFor_append (s : Nat) (t₁ t₂ : List LEv) :
    ranFor s (t₁ ++ t₂) = ranFor s t₁ ++ ranFor s t₂ := by
  unfold ranFor
  exact List.filterMap_append t₁ t₂ _

/-- `ranFor` on a block of one scope's cleanup events. -/
theorem ranFor_map_ran (s' s : Nat) (l : List Nat) :
    ranFor s' (l.map (LEv.ran s)) = if s = s' then l else [] := by
  unfold ranFor
  rw [List.filterMap_map]
  by_cases h : s = s'
  · subst h
    simp [Function.comp_def]
  · simp [Function.comp_def, h]

/-- A `detached` event contributes nothing to `ranFor`. -/
theorem ranFor_detached (s n : Nat) : ranFor s [LEv.detached n] = [] := by
  simp [ranFor]

/-- A block of cleanup events consists of `ran` events only. -/
theorem onlyRan_map (s : Nat) (l : List Nat) : OnlyRan (l.map (LEv.ran s)) := by
  intro e he
  rcases List.mem_map.mp he with ⟨c, _, rfl⟩
  exact ⟨s, c, rfl⟩

/-- Concatenation of ran-only traces is ran-only. -/
theorem onlyRan_append {t₁ t₂ : List LEv} (h₁ : OnlyRan t₁) (h₂ : OnlyRan t₂) :
    OnlyRan (t₁ ++ t₂) := by
  intro e he
  rcases List.mem_append.mp he with h | h
  · exact h₁ e h
  · exact h₂ e h

/-- Membership transfer for `foundScopes` under a shrinking boundary map:
anything found under the later map was found under the earlier one. -/
theorem foundScopes_mono {b₁ b₂ : Nat → Option Nat} {ns : List DNode} {s : Nat}
    (hshrink : ∀ k, b₂ k = b₁ k ∨ b₂ k = none)
    (h : s ∈ foundScopes b₂ ns) : s ∈ foundScopes b₁ ns := by
  unfold foundScopes at *
  rcases List.mem_filterMap.mp h with ⟨k, hk, hbk⟩
  refine List.mem_filterMap.mpr ⟨k, hk, ?_⟩
  rcases hshrink k with h' | h'
  · rw [← h']; exact hbk
  · rw [h'] at hbk; cases hbk

/-- Membership transfer for `foundScopes` under a map that preserves the
entries of scopes outside a protected set. -/
theorem foundScopes_preserved {b₁ b₂ : Nat → Option Nat} {ns : List DNode} {s : Nat}
    (hkeep : ∀ k, b₁ k = some s → b₂ k = some s)
    (h : s ∈ foundScopes b₁ ns) : s ∈ foundScopes b₂ ns := by
  unfold foundScopes at *
  rcases List.mem_filterMap.mp h with ⟨k, hk, hbk⟩
  exact List.mem_filterMap.mpr ⟨k, hk, hkeep k hbk⟩

mutual

/-- Specification of the deep disposal walk on one subtree: it only appends
cleanup-invocation events; the events of each scope found at a recorded
boundary comment in the subtree are exactly that scope's cleanups in reverse
registration order, emitted once (scopes not found emit nothing); found
scopes end cleared; the boundary map only loses entries, and entries of
scopes that were not found are kept. -/
theorem deepDisposeNode_spec (n : DNode) (σ : LState) :
    (∃ Δ, (deepDisposeNode n σ).events = σ.events ++ Δ ∧ OnlyRan Δ
        ∧ ∀ s, ranFor s Δ
            = if s ∈ foundScopesNode σ.boundary n
              then (σ.scopeCleanups s).reverse else [])
    ∧ (∀ s, s ∉ foundScopesNode σ.boundary n
        → (deepDisposeNode n σ).scopeCleanups s = σ.scopeCleanups s)
    ∧ (∀ s, s ∈ foundScopesNode σ.boundary n
        → (deepDisposeNode n σ).scopeCleanups s = [])
    ∧ (∀ k, (deepDisposeNode n σ).boundary k = σ.boundary k
          ∨ (deepDisposeNode n σ).boundary k = none)
    ∧ (∀ k s, σ.boundary k = some s → s ∉ foundScopesNode σ.boundary n
        → (deepDisposeNode n σ).boundary k = some s) := by
  match n with
  | .text i =>
      have hd : deepDisposeNode (.text i) σ = σ := rfl
      have hF : foundScopesNode σ.boundary (.text i) = [] := rfl
      rw [hd, hF]
      exact ⟨⟨[], by simp, fun e he => absurd he (List.not_mem_nil e),
          fun s => by simp [ranFor]⟩,
        fun s _ => rfl, fun s hs => absurd hs (List.not_mem_nil s),
        fun k => Or.inl rfl, fun k s h _ => h⟩
  | .comment k =>
      cases hb : σ.boundary k with
      | none =>
          have hd : deepDisposeNode (.comment k) σ = σ := by
            simp [deepDisposeNode, disposeIfComponentStart, hb]
          have hF : foundScopesNode σ.boundary (.comment k) = [] := by
            simp [foundScopesNode, commentIds, hb]
          rw [hd, hF]
          exact ⟨⟨[], by simp, fun e he => absurd he (List.not_mem_nil e),
              fun s => by simp [ranFor]⟩,
            fun s _ => rfl, fun s hs => absurd hs (List.not_mem_nil s),
            fun k' => Or.inl rfl, fun k' s h _ => h⟩
      | some s₀ =>
          have hd : deepDisposeNode (.comment k) σ
              = { σ with
                  events := σ.events ++ (σ.scopeCleanups s₀).reverse.map (LEv.ran s₀),
                  scopeCleanups := Function.update σ.scopeCleanups s₀ [],
                  boundary := Function.update σ.boundary k none } := by
            show disposeIfComponentStart (.comment k) σ = _
            simp only [disposeIfComponentStart, hb, runCleanups_char]
          have hF : foundScopesNode σ.boundary (.comment k) = [s₀] := by
            simp [foundScopesNode, commentIds, hb]
          rw [hd, hF]
          refine ⟨⟨(σ.scopeCleanups s₀).reverse.map (LEv.ran s₀), rfl,
              onlyRan_map s₀ _, ?_⟩, ?_, ?_, ?_, ?_⟩
          · intro s
            rw [ranFor_map_ran]
            by_cases hss : s₀ = s
            · subst hss
              simp
            · have hs' : s ∉ [s₀] := fun h => hss (List.mem_singleton.mp h).symm
              rw [if_neg hss, if_neg hs']
          · intro s hs
            have hss : s ≠ s₀ := fun h => hs (h ▸ List.mem_singleton_self s₀)
            show Function.update σ.scopeCleanups s₀ [] s = _
            rw [Function.update_noteq hss]
          · intro s hs
            have hss : s = s₀ := List.mem_singleton.mp hs
            subst hss
            show Function.update σ.scopeCleanups s [] s = []
            rw [Function.update_same]
          · intro k'
            by_cases hkk : k' = k
            · subst hkk
              exact Or.inr (Function.update_same k' (none : Option Nat) σ.boundary)
            · exact Or.inl (Function.update_noteq hkk (none : Option Nat) σ.boundary)
          · intro k' s h hns
            have hss : s ≠ s₀ := fun hh => hns (hh ▸ List.mem_singleton_self s₀)
            have hkk : k' ≠ k := by
              intro hh
              subst hh
              rw [h] at hb
              exact hss (Option.some.inj hb)
            show Function.update σ.boundary k none k' = some s
            rw [Function.update_noteq hkk]
            exact h
  | .elem i cs =>
      have hd : deepDisposeNode (.elem i cs) σ = deepDisposeList cs σ := rfl
      have hF : foundScopesNode σ.boundary (.elem i cs) = foundScopes σ.boundary cs := rfl
      rw [hd, hF]
      exact deepDisposeList_spec cs σ

/-- Specification of the deep disposal walk on a sibling list; same shape
as `deepDisposeNode_spec`. -/
theorem deepDisposeList_spec (ns : List DNode) (σ : LState) :
    (∃ Δ, (deepDisposeList ns σ).events = σ.events ++ Δ ∧ OnlyRan Δ
        ∧ ∀ s, ranFor s Δ
            = if s ∈ foundScopes σ.boundary ns
              then (σ.scopeCleanups s).reverse else [])
    ∧ (∀ s, s ∉ foundScopes σ.boundary ns
        → (deepDisposeList ns σ).scopeCleanups s = σ.scopeCleanups s)
    ∧ (∀ s, s ∈ foundScopes σ.boundary ns
        → (deepDisposeList ns σ).scopeCleanups s = [])
    ∧ (∀ k, (deepDisposeList ns σ).boundary k = σ.boundary k
          ∨ (deepDisposeList ns σ).boundary k = none)
    ∧ (∀ k s, σ.boundary k = some s → s ∉ foundScopes σ.boundary ns
        → (deepDisposeList ns σ).boundary k = some s) := by
  match ns with
  | [] =>
      have hd : deepDisposeList [] σ = σ := rfl
      have hF : foundScopes σ.boundary ([] : List DNode) = [] := rfl
      rw [hd, hF]
      exact ⟨⟨[], by simp, fun e he => absurd he (List.not_mem_nil e),
          fun s => by simp [ranFor]⟩,
        fun s _ => rfl, fun s hs => absurd hs (List.not_mem_nil s),
        fun k => Or.inl rfl, fun k s h _ => h⟩
  | n :: rest =>
      have hd : deepDisposeList (n :: rest) σ
          = deepDisposeList rest (deepDisposeNode n σ) := rfl
      have hFr : ∀ s : Nat, s ∈ foundScopes σ.boundary (n :: rest)
          ↔ s ∈ foundScopesNode σ.boundary n ∨ s ∈ foundScopes σ.boundary rest := by
        intro s
        simp [foundScopes, foundScopesNode, commentIdsList, List.filterMap_append]
      obtain ⟨⟨Δ₁, a1, a2, a3⟩, a4, a5, a6, a7⟩ := deepDisposeNode_spec n σ
      obtain ⟨⟨Δ₂, b1, b2, b3⟩, b4, b5, b6, b7⟩ :=
        deepDisposeList_spec rest (deepDisposeNode n σ)
      rw [hd]
      refine ⟨⟨Δ₁ ++ Δ₂, by rw [b1, a1, List.append_assoc], onlyRan_append a2 b2, ?_⟩,
        ?_, ?_, ?_, ?_⟩
      · intro s
        rw [ranFor_append, a3 s, b3 s]
        by_cases h1 : s ∈ foundScopesNode σ.boundary n
        · rw [if_pos h1, if_pos ((hFr s).mpr (Or.inl h1))]
          by_cases h2 : s ∈ foundScopes (deepDisposeNode n σ).boundary rest
          · rw [if_pos h2, a5 s h1]
            simp
          · rw [if_neg h2]
            simp
        · rw [if_neg h1, a4 s h1]
          by_cases h2 : s ∈ foundScopes (deepDisposeNode n σ).boundary rest
          · rw [if_pos h2,
              if_pos ((hFr s).mpr (Or.inr (foundScopes_mono a6 h2)))]
            simp
          · by_cases h3 : s ∈ foundScopes σ.boundary rest
            · exact absurd (foundScopes_preserved (fun k hk => a7 k s hk h1) h3) h2
            · rw [if_neg h2, if_neg (fun hh => ?_)]
              · simp
              · rcases (hFr s).mp hh with h | h
                · exact h1 h
                · exact h3 h
      · intro s hs
        have h1 : s ∉ foundScopesNode σ.boundary n := fun h => hs ((hFr s).mpr (Or.inl h))
        have h3 : s ∉ foundScopes σ.boundary rest := fun h => hs ((hFr s).mpr (Or.inr h))
        have h2 : s ∉ foundScopes (deepDisposeNode n σ).boundary rest :=
          fun h => h3 (foundScopes_mono a6 h)
        rw [b4 s h2, a4 s h1]
      · intro s hs
        by_cases h2 : s ∈ foundScopes (deepDisposeNode n σ).boundary rest
        · exact b5 s h2
        · rw [b4 s h2]
          rcases (hFr s).mp hs with h | h
          · exact a5 s h
          · by_cases h1 : s ∈ foundScopesNode σ.boundary n
            · exact a5 s h1
            · exact absurd (foundScopes_preserved (fun k hk => a7 k s hk h1) h) h2
      · intro k
        rcases b6 k with h | h
        · rw [h]
          exact a6 k
        · exact Or.inr h
      · intro k s h hns
        have h1 : s ∉ foundScopesNode σ.boundary n := fun hh => hns ((hFr s).mpr (Or.inl hh))
        have h3 : s ∉ foundScopes σ.boundary rest := fun hh => hns ((hFr s).mpr (Or.inr hh))
        have hmid : (deepDisposeNode n σ).boundary k = some s := a7 k s h h1
        have h2 : s ∉ foundScopes (deepDisposeNode n σ).boundary rest :=
          fun hh => h3 (foundScopes_mono a6 hh)
        exact b7 k s hmid h2

end

/-- A `detached` event at the front of a trace contributes nothing to
`ranFor`. -/
theorem ranFor_cons_detached (s n : Nat) (t : List LEv) :
    ranFor s (LEv.detached n :: t) = ranFor s t := by
  unfold ranFor
  rw [List.filterMap_cons]

/-- Specification of the region disposal loop: same shape as
`deepDisposeList_spec`, with the trace additionally carrying one `detached`
event per top-level node, after that node's cleanup block
(`RegionTrace`). -/
theorem disposeBetween_spec (region : List DNode) : ∀ σ : LState,
    (∃ Δ, (disposeBetween region σ).events = σ.events ++ Δ
        ∧ RegionTrace region Δ
        ∧ ∀ s, ranFor s Δ
            = if s ∈ foundScopes σ.boundary region
              then (σ.scopeCleanups s).reverse else [])
    ∧ (∀ s, s ∉ foundScopes σ.boundary region
        → (disposeBetween region σ).scopeCleanups s = σ.scopeCleanups s)
    ∧ (∀ s, s ∈ foundScopes σ.boundary region
        → (disposeBetween region σ).scopeCleanups s = [])
    ∧ (∀ k, (disposeBetween region σ).boundary k = σ.boundary k
          ∨ (disposeBetween region σ).boundary k = none)
    ∧ (∀ k s, σ.boundary k = some s → s ∉ foundScopes σ.boundary region
        → (disposeBetween region σ).boundary k = some s) := by
  induction region with
  | nil =>
      intro σ
      exact ⟨⟨[], by simp [disposeBetween], RegionTrace.nil,
          fun s => by simp [ranFor, foundScopes, commentIdsList]⟩,
        fun s _ => rfl, fun s hs => absurd hs (List.not_mem_nil s),
        fun k => Or.inl rfl, fun k s h _ => h⟩
  | cons n rest ih =>
      intro σ
      have hd : disposeBetween (n :: rest) σ
          = disposeBetween rest
              { deepDisposeNode n σ with
                events := (deepDisposeNode n σ).events ++ [LEv.detached (rootId n)] } := rfl
      have hFr : ∀ s : Nat, s ∈ foundScopes σ.boundary (n :: rest)
          ↔ s ∈ foundScopesNode σ.boundary n ∨ s ∈ foundScopes σ.boundary rest := by
        intro s
        simp [foundScopes, foundScopesNode, commentIdsList, List.filterMap_append]
      obtain ⟨⟨Δ₁, a1, a2, a3⟩, a4, a5, a6, a7⟩ := deepDisposeNode_spec n σ
      obtain ⟨⟨Δ₂, b1, b2, b3⟩, b4, b5, b6, b7⟩ :=
        ih { deepDisposeNode n σ with
              events := (deepDisposeNode n σ).events ++ [LEv.detached (rootId n)] }
      have b1' : (disposeBetween rest
            { deepDisposeNode n σ with
              events := (deepDisposeNode n σ).events ++ [LEv.detached (rootId n)] }).events
          = ((deepDisposeNode n σ).events ++ [LEv.detached (rootId n)]) ++ Δ₂ := b1
      have b3' : ∀ s, ranFor s Δ₂
          = if s ∈ foundScopes (deepDisposeNode n σ).boundary rest
            then ((deepDisposeNode n σ).scopeCleanups s).reverse else [] := b3
      rw [hd]
      refine ⟨⟨Δ₁ ++ LEv.detached (rootId n) :: Δ₂, ?_, RegionTrace.cons a2 b2, ?_⟩,
        ?_, ?_, ?_, ?_⟩
      · rw [b1', a1]
        simp
      · intro s
        rw [ranFor_append, ranFor_cons_detached, a3 s, b3' s]
        by_cases h1 : s ∈ foundScopesNode σ.boundary n
        · rw [if_pos h1, if_pos ((hFr s).mpr (Or.inl h1))]
          by_cases h2 : s ∈ foundScopes (deepDisposeNode n σ).boundary rest
          · rw [if_pos h2, a5 s h1]
            simp
          · rw [if_neg h2]
            simp
        · rw [if_neg h1, a4 s h1]
          by_cases h2 : s ∈ foundScopes (deepDisposeNode n σ).boundary rest
          · rw [if_pos h2,
              if_pos ((hFr s).mpr (Or.inr (foundScopes_mono a6 h2)))]
            simp
          · by_cases h3 : s ∈ foundScopes σ.boundary rest
            · exact absurd (foundScopes_preserved (fun k hk => a7 k s hk h1) h3) h2
            · rw [if_neg h2, if_neg (fun hh => ?_)]
              · simp
              · rcases (hFr s).mp hh with h | h
                · exact h1 h
                · exact h3 h
      · intro s hs
        have h1 : s ∉ foundScopesNode σ.boundary n := fun h => hs ((hFr s).mpr (Or.inl h))
        have h3 : s ∉ foundScopes σ.boundary rest := fun h => hs ((hFr s).mpr (Or.inr h))
        have h2 : s ∉ foundScopes (deepDisposeNode n σ).boundary rest :=
          fun h => h3 (foundScopes_mono a6 h)
        have hb4 : (disposeBetween rest
            { deepDisposeNode n σ with
              events := (deepDisposeNode n σ).events ++ [LEv.detached (rootId n)] }).scopeCleanups s
            = (deepDisposeNode n σ).scopeCleanups s := b4 s h2
        rw [hb4, a4 s h1]
      · intro s hs
        by_cases h2 : s ∈ foundScopes (deepDisposeNode n σ).boundary rest
        · exact b5 s h2
        · have hb4 : (disposeBetween rest
              { deepDisposeNode n σ with
                events := (deepDisposeNode n σ).events ++ [LEv.detached (rootId n)] }).scopeCleanups s
              = (deepDisposeNode n σ).scopeCleanups s := b4 s h2
          rw [hb4]
          rcases (hFr s).mp hs with h | h
          · exact a5 s h
          · by_cases h1 : s ∈ foundScopesNode σ.boundary n
            · exact a5 s h1
            · exact absurd (foundScopes_preserved (fun k hk => a7 k s hk h1) h) h2
      · intro k
        rcases b6 k with h | h
        · rw [h]
          exact a6 k
        · exact Or.inr h
      · intro k s h hns
        have h1 : s ∉ foundScopesNode σ.boundary n :=
          fun hh => hns ((hFr s).mpr (Or.inl hh))
        have h3 : s ∉ foundScopes σ.boundary rest :=
          fun hh => hns ((hFr s).mpr (Or.inr hh))
        have hmid : (deepDisposeNode n σ).boundary k = some s := a7 k s h h1
        have h2 : s ∉ foundScopes (deepDisposeNode n σ).boundary rest :=
          fun hh => h3 (foundScopes_mono a6 hh)
        exact b7 k s hmid h2

/-- C6: correctness of `disposeBetween`.  For every region between two
anchors and every lifecycle state, the disposal appends a trace `Δ` with the
block structure `RegionTrace`: per top-level node, the cleanup events of its
subtree strictly precede that node's `detached` event, so cleanups always
run before the nodes are physically removed.  Every scope recorded at a
boundary comment anywhere in the region (nested descendants included) has
exactly its cleanup list, in reverse registration order, as its events in
`Δ` — run exactly once, even when the same scope or comment is reachable
twice, because `runCleanups` clears the list and the boundary association is
deleted; scopes not found contribute nothing.  A region with no recorded
boundaries produces a trace of `detached` events only, so its content is
still removed with no cleanups run. -/
theorem C6_disposeBetween_correct (region : List DNode) (σ : LState) :
    ∃ Δ, (disposeBetween region σ).events = σ.events ++ Δ
      ∧ RegionTrace region Δ
      ∧ (∀ s, s ∈ foundScopes σ.boundary region
          → ranFor s Δ = (σ.scopeCleanups s).reverse)
      ∧ (∀ s, s ∉ foundScopes σ.boundary region → ranFor s Δ = [])
      ∧ (foundScopes σ.boundary region = []
          → ∀ e ∈ Δ, ∃ n, e = LEv.detached n) := by
  obtain ⟨⟨Δ, h1, h2, h3⟩, _, _, _, _⟩ := disposeBetween_spec region σ
  refine ⟨Δ, h1, h2, fun s hs => by rw [h3 s, if_pos hs],
    fun s hs => by rw [h3 s, if_neg hs], ?_⟩
  intro hF e he
  cases e with
  | detached n => exact ⟨n, rfl⟩
  | ran s c =>
      exfalso
      have hr : c ∈ ranFor s Δ := by
        unfold ranFor
        refine List.mem_filterMap.mpr ⟨LEv.ran s c, he, ?_⟩
        simp
      rw [h3 s, hF] at hr
      simp at hr

end Shadow
